import Mathlib

/-
Shallow embedding of the id-obfuscation core of `dj_utils/fields/ido.py`
(class `IdObfuscator`): the mask-set builder `create_from_seed`, the mixer
`get_obfuscated_id_value`, the base-32 encoder `get_obfuscated_id`, and the
alphabet validation done in `__init__`.

Python integers are embedded as `Int` where the source accepts arbitrary
(possibly negative) values, and as `Nat` where the source only ever produces
non-negative values.  Python's `x & (1 << i) != 0` on a possibly negative `x`
is the two's-complement bit test, i.e. `(x // 2^i) % 2 == 1` with floor
division, embedded via `Int.ediv`/`Int.emod`.  `xors[-1]` raises on an empty
list in Python; the embedding uses `List.getLastD 0` and theorems that depend
on the last element carry a non-emptiness hypothesis.
-/

/-- The default 32-character code alphabet `IdObfuscator.DEFAULT_CODE_CHARS`. -/
def DEFAULT_CODE_CHARS : List Char := "abcdefghijkmnpqrstuvwxyz23456789".toList

/-- Python's truthiness test `raw & (1 << i)` on an arbitrary integer `raw`:
bit `i` of the two's-complement representation, i.e. `(raw // 2^i) % 2 == 1`
with floor division.  On `Int` the `/` and `%` notation used here is
`Int.ediv`/`Int.emod` (floor division with non-negative remainder for a
positive divisor), which matches Python's `//` and `%`. -/
def pyTestBit (raw : Int) (i : Nat) : Bool := raw / 2 ^ i % 2 == 1

/-- `IdObfuscator.get_obfuscated_id_value` (ido.py lines 88-97):
`result = self.xors[-1]`, then `for mask, xor in zip(self.masks, self.xors): if
raw_value & mask: result ^= xor`.  Since `masks = [1 << i for i in
range(self.bits)]` with `bits = len(xors) - 1` (lines 80, 86) and `zip`
truncates to the `bits` pairs `(1 << i, xors[i])`, the loop is embedded as a
fold over the indices `i < bits`, testing bit `i` of `raw_value`. -/
def get_obfuscated_id_value (xors : List Nat) (raw_value : Int) : Nat :=
  (List.range (xors.length - 1)).foldl
    (fun result i => if pyTestBit raw_value i then result ^^^ xors.getD i 0 else result)
    (xors.getLastD 0)

/-- The encoding loop of `IdObfuscator.get_obfuscated_id` (ido.py lines
106-111): `width` iterations of `r.append(code_chars[value % 32]); value >>=
5`, then the digits are reversed (most significant first).  Reversing the
appended list is the same as recursing on `value / 32` first and putting
`code_chars[value % 32]` last. -/
def encode_digits (code_chars : List Char) : Nat → Nat → List Char
  | 0, _ => []
  | w + 1, value => encode_digits code_chars w (value / 32) ++ [code_chars.getD (value % 32) ' ']

/-- `IdObfuscator.get_obfuscated_id` (ido.py lines 99-111): mix, then encode
with exactly `(self.bits + 4) // 5` iterations (Python floor division). -/
def get_obfuscated_id (xors : List Nat) (code_chars : List Char) (raw_value : Int) : List Char :=
  encode_digits code_chars ((xors.length - 1 + 4) / 5) (get_obfuscated_id_value xors raw_value)

/-- The candidate masks of `create_from_seed` (ido.py lines 47-50):
`xor_temp = [(1 << i) + rnd.randint(0, (1 << i) - 1) for i in range(bits+1)]`,
parameterized over the sequence `draws` of values returned by
`rnd.randint(0, (1 << i) - 1)`. -/
def xor_temp (bits : Nat) (draws : List Nat) : List Nat :=
  (List.range (bits + 1)).map (fun i => 2 ^ i + draws.getD i 0)

/-- The per-mask bit-shuffle loop of `create_from_seed` (ido.py lines 56-60):
`v = 0; for i in range(bits): if x & (1 << i): v += (1 << mapping[i])`.
`x` is always non-negative here, so the bit test is `Nat.testBit`. -/
def shuffle_bits (bits : Nat) (mapping : List Nat) (x : Nat) : Nat :=
  (List.range bits).foldl
    (fun v i => if x.testBit i then v + 2 ^ (mapping.getD i 0) else v) 0

/-- `IdObfuscator.create_from_seed` (ido.py lines 47-67), parameterized over
the pseudo-random outcomes: `draws` are the `bits + 1` values drawn by
`rnd.randint(0, (1 << i) - 1)`, and `mapping` is the result of
`rnd.shuffle(range(bits))`.  Builds `xor_temp`, shuffles every candidate's
bits with the single shared `mapping`, then reverses the list. -/
def create_xors (bits : Nat) (draws : List Nat) (mapping : List Nat) : List Nat :=
  ((xor_temp bits draws).map (shuffle_bits bits mapping)).reverse

/-- The draw sequence is one `rnd.randint(0, (1 << i) - 1)` outcome per
`i in range(bits+1)`: `bits + 1` values with `draws[i] ≤ 2^i - 1`
(`randint` is inclusive at both ends). -/
@[reducible] def ValidDraws (bits : Nat) (draws : List Nat) : Prop :=
  draws.length = bits + 1 ∧ ∀ i, i < bits + 1 → draws.getD i 0 ≤ 2 ^ i - 1

/-- `mapping` is an outcome of `rnd.shuffle(range(bits))`: a permutation of
`[0, 1, ..., bits - 1]`. -/
@[reducible] def ValidMapping (bits : Nat) (mapping : List Nat) : Prop :=
  mapping.Perm (List.range bits)

/-- XOR of the subset of `masks` selected by the set bits of `x`: the linear
combination over GF(2) with coefficient vector `x`.  `x = 0` selects nothing
(the empty combination); the masks are linearly independent over GF(2) iff
this is nonzero for every nonzero `x < 2 ^ masks.length`. -/
def subset_xor (masks : List Nat) (x : Nat) : Nat :=
  (List.range masks.length).foldl
    (fun r i => if x.testBit i then r ^^^ masks.getD i 0 else r) 0

/-- The alphabet handling of `IdObfuscator.__init__` (ido.py lines 82-83):
`self.code_chars = code_chars or IdObfuscator.DEFAULT_CODE_CHARS` (Python
`or`: `None` and the empty string are falsy and fall back to the default),
then `assert len(self.code_chars) == 32, "Must have 32 code characters."`.
The failed assertion (an `AssertionError`) is embedded as `Except.error`. -/
def init_code_chars (code_chars : Option (List Char)) : Except String (List Char) :=
  let cc := match code_chars with
    | none => DEFAULT_CODE_CHARS
    | some l => if l.isEmpty then DEFAULT_CODE_CHARS else l
  if cc.length = 32 then Except.ok cc else Except.error "Must have 32 code characters."

/-- A 32-symbol alphabet containing a duplicate symbol: `a` twice. -/
def dup_alphabet : List Char := 'a' :: DEFAULT_CODE_CHARS.take 31

/- General lemmas about the conditional-XOR folds used by the mixer. -/

/-- Folding the conditional-XOR step from `init` equals `init` XOR the fold
from `0`. -/
theorem foldl_xor_if_shift (f : Nat → Bool) (g : Nat → Nat) (l : List Nat) (init : Nat) :
    l.foldl (fun r i => if f i then r ^^^ g i else r) init
      = init ^^^ l.foldl (fun r i => if f i then r ^^^ g i else r) 0 := by
  induction l generalizing init with
  | nil => simp
  | cons a t ih =>
    simp only [List.foldl_cons]
    rw [ih (if f a then init ^^^ g a else init), ih (if f a then 0 ^^^ g a else 0)]
    cases h : f a <;> simp [Nat.xor_assoc]

/-- The conditional-XOR fold is the plain XOR fold of the images of the
selected indices. -/
theorem foldl_xor_if_filter (f : Nat → Bool) (g : Nat → Nat) (l : List Nat) (init : Nat) :
    l.foldl (fun r i => if f i then r ^^^ g i else r) init
      = ((l.filter f).map g).foldl (fun a b => a ^^^ b) init := by
  induction l generalizing init with
  | nil => rfl
  | cons a t ih =>
    cases h : f a <;> simp [List.filter_cons, h, ih]

/-- Two conditional-XOR folds agree when their selection conditions agree on
the list. -/
theorem foldl_xor_if_congr (f f' : Nat → Bool) (g : Nat → Nat) (l : List Nat) (init : Nat)
    (h : ∀ i ∈ l, f i = f' i) :
    l.foldl (fun r i => if f i then r ^^^ g i else r) init
      = l.foldl (fun r i => if f' i then r ^^^ g i else r) init := by
  induction l generalizing init with
  | nil => rfl
  | cons a t ih =>
    simp only [List.foldl_cons]
    rw [h a (List.mem_cons_self a t)]
    exact ih _ (fun i hi => h i (List.mem_cons_of_mem a hi))

/-- A conditional fold whose condition never fires returns its start value. -/
theorem foldl_if_false {α : Type} (c : Nat → Bool) (g : α → Nat → α) (l : List Nat) (init : α)
    (h : ∀ i ∈ l, c i = false) :
    l.foldl (fun r i => if c i then g r i else r) init = init := by
  induction l generalizing init with
  | nil => rfl
  | cons a t ih =>
    simp only [List.foldl_cons, h a (List.mem_cons_self a t)]
    exact ih init (fun i hi => h i (List.mem_cons_of_mem a hi))

/-- Bit `i` of `0` is never set. -/
theorem pyTestBit_zero (i : Nat) : pyTestBit 0 i = false := by
  simp [pyTestBit]

/-- For `i < b`, bit `i` of `2 ^ b` is not set. -/
theorem pyTestBit_two_pow {b i : Nat} (h : i < b) : pyTestBit ((2 : Int) ^ b) i = false := by
  have hsplit : (2 : Int) ^ b = 2 ^ i * (2 * 2 ^ (b - i - 1)) := by
    rw [← pow_succ']
    rw [← pow_add]
    congr 1
    omega
  have hdiv : ((2 : Int) ^ b) / (2 ^ i) = 2 * 2 ^ (b - i - 1) := by
    rw [hsplit]
    exact Int.mul_ediv_cancel_left _ (by positivity)
  simp only [pyTestBit, hdiv]
  simp [Int.mul_emod_right]

/- Encoder lemmas. -/

/-- The encoding loop always produces exactly `width` symbols, regardless of
the magnitude of `value` (the iteration count is fixed, not
"until value is zero"). -/
theorem encode_digits_length (code_chars : List Char) (w : Nat) :
    ∀ v, (encode_digits code_chars w v).length = w := by
  induction w with
  | zero => intro v; rfl
  | succ w ih => intro v; simp [encode_digits, ih]

/-- Digit `j` (most significant first) of the encoding of `value` is
`code_chars[value / 32 ^ (width - 1 - j) % 32]`. -/
theorem encode_digits_getD (code_chars : List Char) :
    ∀ (w v j : Nat), j < w →
      (encode_digits code_chars w v).getD j ' ' =
        code_chars.getD (v / 32 ^ (w - 1 - j) % 32) ' ' := by
  intro w
  induction w with
  | zero => intro v j h; exact absurd h (Nat.not_lt_zero j)
  | succ w ih =>
    intro v j h
    simp only [encode_digits]
    by_cases hj : j < w
    · rw [List.getD_append _ _ _ _ (by rw [encode_digits_length]; exact hj)]
      rw [ih (v / 32) j hj, Nat.div_div_eq_div_mul]
      have h32 : 32 * 32 ^ (w - 1 - j) = 32 ^ (w + 1 - 1 - j) := by
        have h1 : w + 1 - 1 - j = (w - 1 - j) + 1 := by omega
        rw [h1, Nat.pow_succ, Nat.mul_comm]
      rw [h32]
    · have hj' : j = w := by omega
      subst hj'
      rw [List.getD_append_right _ _ _ _ (Nat.le_of_eq (encode_digits_length _ _ _))]
      have h0 : j + 1 - 1 - j = 0 := by omega
      rw [encode_digits_length, h0, Nat.sub_self]
      simp

example : create_xors 1 [0, 0] [0] = [0, 1] := by decide
example : get_obfuscated_id_value [0, 1] 0 = 1 := by decide
example : get_obfuscated_id_value [0, 1] 1 = 1 := by decide
example : get_obfuscated_id_value [2, 3, 1] 4 = get_obfuscated_id_value [2, 3, 1] 0 := by decide
example : create_xors 2 [0, 1, 2] [0, 1] = [2, 3, 1] := by decide
example : get_obfuscated_id_value [2, 3, 1] 1 = 3 := by decide
example : ValidDraws 2 [0, 1, 2] := by decide
example : ValidMapping 2 [0, 1] := by decide
example : (get_obfuscated_id (List.replicate 31 1) DEFAULT_CODE_CHARS 0).length = 6 := by rfl
example : ¬ dup_alphabet.Nodup ∧ dup_alphabet.length = 32 := by decide
example : shuffle_bits 1 [0] 2 = 0 := by decide


/- Claim theorems. -/

/-- C1 (code bug): the spec and the source's own comment (ido.py lines 42-46)
claim the construction makes the xor matrix non-singular so that "there can't
be any collisions"; but the shuffle loop (lines 56-60) iterates only over
source bit positions `0 .. bits-1` and therefore drops the forced top bit of
the last candidate mask `xor_temp[bits]`.  For `bits = 1` with the valid draw
sequence `randint(0,0) = 0, randint(0,1) = 0` and the (only) permutation
`[0]`, the produced mask set is `[0, 1]` and `get_obfuscated_id_value` maps
both `0` and `1` to `1`: a collision inside `[0, 2^bits)`, so the map is not
a bijection. -/
theorem C1_mix_collision_for_valid_draws :
    ValidDraws 1 [0, 0] ∧ ValidMapping 1 [0] ∧
    create_xors 1 [0, 0] [0] = [0, 1] ∧
    get_obfuscated_id_value (create_xors 1 [0, 0] [0]) 0 =
      get_obfuscated_id_value (create_xors 1 [0, 0] [0]) 1 := by
  refine ⟨⟨by decide, by decide⟩, by decide, by decide, by decide⟩

/-- C2, counterexample: the claim says the code length is
`ceil((bits+4)/5)` — which is `(30 + 4 + 4) / 5 = 7` for `bits = 30` — but
the source computes `(self.bits + 4) // 5` iterations (Python floor
division, ido.py line 108), so a `bits = 30` obfuscator (31 masks) produces
6 symbols, not 7. -/
theorem C2_counterexample :
    (List.replicate 31 (1 : Nat)).length - 1 = 30 ∧ (30 + 4 + 4) / 5 = 7 ∧
    (get_obfuscated_id (List.replicate 31 1) DEFAULT_CODE_CHARS 0).length = 6 := by
  refine ⟨rfl, rfl, ?_⟩
  rfl

/-- C2 (amended): for every mask set, every alphabet and every raw input, the
short code has length exactly `(bits + 4) / 5` rounded DOWN (equivalently
`ceil(bits / 5)`; in particular width 6 for `bits = 30`), with digits most
significant first and leading zero-symbols: digit `j` is
`code_chars[value / 32 ^ (width - 1 - j) % 32]`. -/
theorem C2_encode_fixed_width (xors : List Nat) (code_chars : List Char) (raw : Int) :
    (get_obfuscated_id xors code_chars raw).length = (xors.length - 1 + 4) / 5 ∧
    ∀ j, j < (xors.length - 1 + 4) / 5 →
      (get_obfuscated_id xors code_chars raw).getD j ' ' =
        code_chars.getD
          (get_obfuscated_id_value xors raw / 32 ^ ((xors.length - 1 + 4) / 5 - 1 - j) % 32)
          ' ' :=
  ⟨encode_digits_length _ _ _, fun _ hj => encode_digits_getD _ _ _ _ hj⟩

/-- Witness for C2_encode_fixed_width at `xors = [0, 1]`, the default
alphabet and `raw = 0`. -/
theorem C2_encode_fixed_width_witness :
    (get_obfuscated_id [0, 1] DEFAULT_CODE_CHARS 0).length =
      (([0, 1] : List Nat).length - 1 + 4) / 5 ∧
    (get_obfuscated_id [0, 1] DEFAULT_CODE_CHARS 0).getD 0 ' ' =
      DEFAULT_CODE_CHARS.getD
        (get_obfuscated_id_value [0, 1] 0 /
          32 ^ ((([0, 1] : List Nat).length - 1 + 4) / 5 - 1 - 0) % 32) ' ' :=
  ⟨(C2_encode_fixed_width [0, 1] DEFAULT_CODE_CHARS 0).1,
   (C2_encode_fixed_width [0, 1] DEFAULT_CODE_CHARS 0).2 0 (by decide)⟩

/-- C3, counterexample: the claim says `raw = 2^bits` fails with a
`DomainError`, but `get_obfuscated_id_value` (ido.py lines 88-97) contains no
range check and no raise at all: on the mask set `[2, 3, 1]` (`bits = 2`) the
out-of-range input `raw = 4 = 2^bits` returns the ordinary value `1`, the
same output as `raw = 0`. -/
theorem C3_counterexample :
    get_obfuscated_id_value [2, 3, 1] 4 = 1 ∧ get_obfuscated_id_value [2, 3, 1] 0 = 1 := by
  exact ⟨by decide, by decide⟩

/-- C3 (amended): the mixer performs no domain validation and never fails:
every integer `raw` is accepted (in-range values `0` and `2^bits - 1`
trivially included), and the first out-of-range value `raw = 2^bits` silently
produces the same output as `raw = 0` (its bit at position `bits` is beyond
every mask, so it wraps) instead of raising a `DomainError`. -/
theorem C3_no_domain_check (xors : List Nat) (h : xors ≠ []) :
    get_obfuscated_id_value xors ((2 : Int) ^ (xors.length - 1)) =
      get_obfuscated_id_value xors 0 := by
  unfold get_obfuscated_id_value
  apply foldl_xor_if_congr
  intro i hi
  rw [List.mem_range] at hi
  rw [pyTestBit_two_pow hi, pyTestBit_zero]

/-- Witness for C3_no_domain_check at the mask set `[2, 3, 1]`. -/
theorem C3_no_domain_check_witness :
    get_obfuscated_id_value [2, 3, 1] ((2 : Int) ^ (([2, 3, 1] : List Nat).length - 1)) =
      get_obfuscated_id_value [2, 3, 1] 0 :=
  C3_no_domain_check [2, 3, 1] (by decide)

/-- C4 (confirmed): for a mask set of length `bits + 1` and `raw` in
`[0, 2^bits)`, the mixer's result is `xors[bits]` (the last mask, the fold's
start value) XOR-combined with exactly those `xors[i]`, `i < bits`, for which
bit `i` of `raw` is set. -/
theorem C4_mix_is_selected_xor (xors : List Nat) (raw : Int) (hne : xors ≠ [])
    (h0 : 0 ≤ raw) (h1 : raw < 2 ^ (xors.length - 1)) :
    get_obfuscated_id_value xors raw =
      (((List.range (xors.length - 1)).filter (fun i => pyTestBit raw i)).map
          (fun i => xors.getD i 0)).foldl (fun a b => a ^^^ b) (xors.getLastD 0) :=
  foldl_xor_if_filter (fun i => pyTestBit raw i) (fun i => xors.getD i 0) _ _

/-- Witness for C4_mix_is_selected_xor at `xors = [2, 3, 1]`, `raw = 1`. -/
theorem C4_mix_is_selected_xor_witness :
    get_obfuscated_id_value [2, 3, 1] 1 =
      (((List.range (([2, 3, 1] : List Nat).length - 1)).filter (fun i => pyTestBit 1 i)).map
          (fun i => ([2, 3, 1] : List Nat).getD i 0)).foldl (fun a b => a ^^^ b)
        (([2, 3, 1] : List Nat).getLastD 0) :=
  C4_mix_is_selected_xor [2, 3, 1] 1 (by decide) (by decide) (by decide)

/-- C5, counterexample: the mask set `create_xors 2 [0, 1, 2] [0, 1] =
[2, 3, 1]` arises from `create_from_seed` with the valid draw sequence
`randint(0,0) = 0, randint(0,1) = 1, randint(0,3) = 2` and the identity
permutation; on it, re-applying the mixer to `mix(0) = 1` yields
`mix(1) = 3 ≠ 0`, so `mix` is not self-inverse. -/
theorem C5_counterexample :
    ValidDraws 2 [0, 1, 2] ∧ ValidMapping 2 [0, 1] ∧
    get_obfuscated_id_value (create_xors 2 [0, 1, 2] [0, 1])
        (Int.ofNat (get_obfuscated_id_value (create_xors 2 [0, 1, 2] [0, 1]) 0)) ≠ 0 := by
  refine ⟨⟨by decide, by decide⟩, by decide, by decide⟩

/-- C5 (amended): what XOR's self-inverse property actually gives is that each
mask application cancels itself: re-applying the same bit-selection/XOR rule
to the obfuscated value with the *original* `raw`'s bit selections recovers
the base mask `xors[-1]` (every selected mask is XOR-ed in a second time and
cancels).  Feeding the obfuscated value back into
`get_obfuscated_id_value`, however, selects masks by the *output*'s bits and
need not return `raw`. -/
theorem C5_reapply_selection_cancels (xors : List Nat) (raw : Int) :
    (List.range (xors.length - 1)).foldl
        (fun r i => if pyTestBit raw i then r ^^^ xors.getD i 0 else r)
        (get_obfuscated_id_value xors raw)
      = xors.getLastD 0 := by
  have hmix : get_obfuscated_id_value xors raw
      = xors.getLastD 0 ^^^ (List.range (xors.length - 1)).foldl
          (fun r i => if pyTestBit raw i then r ^^^ xors.getD i 0 else r) 0 :=
    foldl_xor_if_shift _ _ _ _
  rw [hmix, foldl_xor_if_shift _ _ _
    (xors.getLastD 0 ^^^ (List.range (xors.length - 1)).foldl
        (fun r i => if pyTestBit raw i then r ^^^ xors.getD i 0 else r) 0)]
  rw [Nat.xor_assoc, Nat.xor_self, Nat.xor_zero]

/-- C7 (code bug): the spec (and the intent evidenced by the source comment
on lines 42-46 that independence is preserved so collisions are impossible)
says every set bit at source position `p` moves to `permutation[p]` and
independence is preserved; but the shuffle loop (ido.py lines 56-60) iterates
only over `p in range(bits)`, so the set bit of `xor_temp[bits] = 2` at
source position `p = bits = 1` is silently discarded: `shuffle_bits 1 [0] 2 =
0`, and the resulting mask family `create_xors 1 [0, 0] [0]` contains the
zero mask — a linearly dependent family. -/
theorem C7_shuffle_drops_top_bit :
    xor_temp 1 [0, 0] = [1, 2] ∧ (2 : Nat).testBit 1 = true ∧
    ValidMapping 1 [0] ∧ shuffle_bits 1 [0] 2 = 0 ∧
    (create_xors 1 [0, 0] [0]).getD 0 0 = 0 := by
  refine ⟨by decide, by decide, by decide, by decide, by decide⟩

/-- C8, counterexample: a 32-symbol alphabet with a duplicated symbol is
accepted by the construction-time validation of `IdObfuscator.__init__`
(which only checks `len(code_chars) == 32`), contradicting the claim that
every malformed alphabet — duplicates included — fails at construction. -/
theorem C8_counterexample :
    dup_alphabet.length = 32 ∧ ¬ dup_alphabet.Nodup ∧
    init_code_chars (some dup_alphabet) = Except.ok dup_alphabet := by
  refine ⟨by decide, by decide, ?_⟩
  rfl

/-- C8 (amended): construction-time validation checks only the symbol count:
a non-empty alphabet is accepted if and only if it has exactly 32 symbols
(wrong sizes fail immediately — via `assert`, i.e. an `AssertionError`, not a
`ConfigurationError`); duplicate symbols are not detected, and the check runs
once in `__init__`, never per call. -/
theorem C8_length_only_validation (code_chars : List Char) (h : code_chars ≠ []) :
    init_code_chars (some code_chars) = Except.ok code_chars ↔ code_chars.length = 32 := by
  have hne : code_chars.isEmpty = false := by
    cases code_chars with
    | nil => exact absurd rfl h
    | cons a t => rfl
  by_cases hl : code_chars.length = 32 <;> simp [init_code_chars, hne, hl]

/-- Witness for C8_length_only_validation at the default alphabet. -/
theorem C8_length_only_validation_witness :
    init_code_chars (some DEFAULT_CODE_CHARS) = Except.ok DEFAULT_CODE_CHARS :=
  (C8_length_only_validation DEFAULT_CODE_CHARS (by decide)).mpr (by decide)


/- Lemmas for the modular-wrap, base-mask and independence claims. -/

/-- Reducing `raw` modulo `2 ^ b` does not change its low bits `i < b`. -/
theorem pyTestBit_emod_two_pow (raw : Int) {b i : Nat} (h : i < b) :
    pyTestBit (raw % (2 : Int) ^ b) i = pyTestBit raw i := by
  have hpow : (2 : Int) ^ (b - i) * 2 ^ i = 2 ^ b := by
    rw [← pow_add]
    congr 1
    omega
  have h2 : raw % 2 ^ b + (raw / 2 ^ b * 2 ^ (b - i)) * 2 ^ i = raw := by
    calc raw % 2 ^ b + (raw / 2 ^ b * 2 ^ (b - i)) * 2 ^ i
        = raw % 2 ^ b + 2 ^ b * (raw / 2 ^ b) := by rw [mul_assoc, hpow]; ring
      _ = raw := Int.emod_add_ediv raw (2 ^ b)
  have hbi : (2 : Int) ^ (b - i) = 2 ^ (b - i - 1) * 2 := by
    rw [← pow_succ]
    congr 1
    omega
  have hkey : (raw % 2 ^ b) / 2 ^ i % 2 = raw / 2 ^ i % 2 := by
    conv_rhs => rw [← h2]
    rw [Int.add_mul_ediv_right _ _ ((by positivity : (0 : Int) < 2 ^ i).ne')]
    rw [hbi, ← mul_assoc, Int.add_mul_emod_self]
  unfold pyTestBit
  rw [hkey]

/-- Element `i < n` of `(List.range n).map f` is `f i`. -/
theorem getD_map_range (f : Nat → Nat) {n i : Nat} (h : i < n) :
    ((List.range n).map f).getD i 0 = f i := by
  have hlen : i < ((List.range n).map f).length := by simpa using h
  rw [List.getD_eq_getElem _ _ hlen]
  simp

/-- A number in `[2^j, 2^(j+1))` has bit `j` set. -/
theorem testBit_true_of_le_of_lt {m j : Nat} (h1 : 2 ^ j ≤ m) (h2 : m < 2 ^ (j + 1)) :
    m.testBit j = true := by
  rw [Nat.testBit_to_div_mod]
  have hdiv : m / 2 ^ j = 1 := by
    apply Nat.div_eq_of_lt_le
    · simpa using h1
    · have hp : (2 : Nat) ^ (j + 1) = 2 ^ j * 2 := Nat.pow_succ 2 j
      omega
  simp [hdiv]

/-- A conditional-XOR fold of values below `2 ^ n`, started below `2 ^ n`,
stays below `2 ^ n`. -/
theorem foldl_xor_if_lt_two_pow (c : Nat → Bool) (g : Nat → Nat) (n : Nat) :
    ∀ (l : List Nat) (init : Nat), init < 2 ^ n → (∀ i ∈ l, g i < 2 ^ n) →
      l.foldl (fun r i => if c i then r ^^^ g i else r) init < 2 ^ n := by
  intro l
  induction l with
  | nil => intro init hinit _; exact hinit
  | cons a t ih =>
    intro init hinit hg
    simp only [List.foldl_cons]
    refine ih _ ?_ (fun i hi => hg i (List.mem_cons_of_mem a hi))
    cases hc : c a
    · simpa [hc] using hinit
    · simp only [hc, if_true]
      exact Nat.xor_lt_two_pow hinit (hg a (List.mem_cons_self a t))

/-- Shuffling the single-bit candidate `1` moves its bit 0 to
`mapping[0]`. -/
theorem shuffle_bits_one (bits : Nat) (mapping : List Nat) (hb : 1 ≤ bits) :
    shuffle_bits bits mapping 1 = 2 ^ mapping.getD 0 0 := by
  obtain ⟨b, rfl⟩ : ∃ b, bits = b + 1 := ⟨bits - 1, by omega⟩
  unfold shuffle_bits
  rw [List.range_succ_eq_map, List.foldl_cons, List.foldl_map]
  have h1 : (1 : Nat).testBit 0 = true := rfl
  simp only [h1, if_true, Nat.zero_add]
  exact foldl_if_false (fun i => (1 : Nat).testBit (Nat.succ i))
    (fun v i => v + 2 ^ mapping.getD (Nat.succ i) 0) (List.range b) _
    (fun i _ => Nat.testBit_lt_two_pow (by
      have h2 : (2 : Nat) ^ 1 ≤ 2 ^ Nat.succ i := Nat.pow_le_pow_right (by omega) (by omega)
      have h3 : (2 : Nat) ^ 1 = 2 := by norm_num
      omega))

/- Remaining claim theorems. -/

/-- C9 (confirmed): the mixer only reads bits `0 .. bits-1` of `raw`, so for
EVERY integer `raw` — negative or `≥ 2^bits` included — the result equals the
result on `raw mod 2^bits` (Python `%`, i.e. `Int.emod`): out-of-range inputs
silently wrap instead of failing. -/
theorem C9_mix_ignores_high_bits (xors : List Nat) (raw : Int) :
    get_obfuscated_id_value xors raw =
      get_obfuscated_id_value xors (raw % (2 : Int) ^ (xors.length - 1)) := by
  unfold get_obfuscated_id_value
  apply foldl_xor_if_congr
  intro i hi
  rw [List.mem_range] at hi
  exact (pyTestBit_emod_two_pow raw hi).symm

/-- C10 (confirmed): for every `bits ≥ 1` and every valid outcome of the
pseudo-random draws, the last mask of `create_from_seed`'s result — the
reversal puts the shuffled image of `xor_temp[0] = 1` there — is
`2 ^ mapping[0]`, a single set bit; and since `raw = 0` selects no mask,
`get_obfuscated_id_value 0` equals that power of two. -/
theorem C10_base_mask_single_bit (bits : Nat) (draws mapping : List Nat)
    (hb : 1 ≤ bits) (hd : ValidDraws bits draws) (hm : ValidMapping bits mapping) :
    ∃ k, (create_xors bits draws mapping).getLastD 0 = 2 ^ k ∧
      get_obfuscated_id_value (create_xors bits draws mapping) 0 = 2 ^ k := by
  obtain ⟨hlen, hdr⟩ := hd
  have hd0 : draws.getD 0 0 = 0 := by
    have h0 := hdr 0 (by omega)
    simpa using h0
  have hmix0 : get_obfuscated_id_value (create_xors bits draws mapping) 0 =
      (create_xors bits draws mapping).getLastD 0 := by
    unfold get_obfuscated_id_value
    exact foldl_if_false _ _ _ _ (fun i _ => pyTestBit_zero i)
  have hlast : (create_xors bits draws mapping).getLastD 0 = shuffle_bits bits mapping 1 := by
    unfold create_xors xor_temp
    rw [List.getLastD_eq_getLast?, List.getLast?_reverse, List.range_succ_eq_map]
    simp only [List.map_cons, List.head?_cons, Option.getD_some]
    rw [hd0]
    norm_num
  refine ⟨mapping.getD 0 0, ?_, ?_⟩
  · rw [hlast, shuffle_bits_one bits mapping hb]
  · rw [hmix0, hlast, shuffle_bits_one bits mapping hb]

/-- Witness for C10_base_mask_single_bit at `bits = 1`, draws `[0, 0]`,
permutation `[0]`. -/
theorem C10_base_mask_single_bit_witness :
    ∃ k, (create_xors 1 [0, 0] [0]).getLastD 0 = 2 ^ k ∧
      get_obfuscated_id_value (create_xors 1 [0, 0] [0]) 0 = 2 ^ k :=
  C10_base_mask_single_bit 1 [0, 0] [0] (by decide) (by decide) (by decide)

/-- C6 (confirmed): `create_from_seed` generates exactly `bits + 1` candidate
masks; candidate `i` lies in `[2^i, 2^(i+1))` — bit `i` set, higher bits
clear — so the candidates have pairwise distinct highest-set-bit indices and
are linearly independent over GF(2): no nonempty subset (encoded by the set
bits of a nonzero coefficient vector `x < 2^(bits+1)`) XORs to zero. -/
theorem C6_candidate_masks_echelon (bits : Nat) (draws : List Nat) (hd : ValidDraws bits draws) :
    (xor_temp bits draws).length = bits + 1 ∧
    (∀ i, i < bits + 1 →
      2 ^ i ≤ (xor_temp bits draws).getD i 0 ∧ (xor_temp bits draws).getD i 0 < 2 ^ (i + 1)) ∧
    (∀ x, 0 < x → x < 2 ^ (bits + 1) → subset_xor (xor_temp bits draws) x ≠ 0) := by
  obtain ⟨hlen, hdr⟩ := hd
  have hlength : (xor_temp bits draws).length = bits + 1 := by simp [xor_temp]
  have hget : ∀ i, i < bits + 1 → (xor_temp bits draws).getD i 0 = 2 ^ i + draws.getD i 0 := by
    intro i hi
    unfold xor_temp
    exact getD_map_range _ hi
  have hbounds : ∀ i, i < bits + 1 →
      2 ^ i ≤ (xor_temp bits draws).getD i 0 ∧ (xor_temp bits draws).getD i 0 < 2 ^ (i + 1) := by
    intro i hi
    rw [hget i hi]
    have h2 : (2 : Nat) ^ (i + 1) = 2 ^ i * 2 := Nat.pow_succ 2 i
    have hdi := hdr i hi
    have h1 : (1 : Nat) ≤ 2 ^ i := Nat.one_le_two_pow
    omega
  refine ⟨hlength, hbounds, ?_⟩
  intro x hx0 hxlt
  have hxne : x ≠ 0 := Nat.pos_iff_ne_zero.mp hx0
  have hjle : 2 ^ Nat.log2 x ≤ x := Nat.log2_self_le hxne
  have hjlt2 : x < 2 ^ (Nat.log2 x + 1) := Nat.lt_log2_self
  have hjtop : x.testBit (Nat.log2 x) = true := testBit_true_of_le_of_lt hjle hjlt2
  have hjlt : Nat.log2 x < bits + 1 := by
    by_contra hcon
    push_neg at hcon
    have hmono : (2 : Nat) ^ (bits + 1) ≤ 2 ^ Nat.log2 x := Nat.pow_le_pow_right (by omega) hcon
    omega
  unfold subset_xor
  rw [hlength]
  have hsplit : bits + 1 = (Nat.log2 x + 1) + (bits - Nat.log2 x) := by omega
  rw [hsplit, List.range_add, List.foldl_append]
  have hsecond : ∀ init : Nat,
      ((List.range (bits - Nat.log2 x)).map (fun k => Nat.log2 x + 1 + k)).foldl
        (fun r i => if x.testBit i then r ^^^ (xor_temp bits draws).getD i 0 else r) init
      = init := by
    intro init
    apply foldl_if_false
    intro i hi
    rw [List.mem_map] at hi
    obtain ⟨a, _, rfl⟩ := hi
    exact Nat.testBit_lt_two_pow
      (lt_of_lt_of_le hjlt2 (Nat.pow_le_pow_right (by omega) (by omega)))
  rw [hsecond]
  rw [List.range_succ, List.foldl_append]
  simp only [List.foldl_cons, List.foldl_nil, hjtop, if_true]
  have hylt : (List.range (Nat.log2 x)).foldl
      (fun r i => if x.testBit i then r ^^^ (xor_temp bits draws).getD i 0 else r) 0
      < 2 ^ Nat.log2 x := by
    apply foldl_xor_if_lt_two_pow
    · exact Nat.two_pow_pos _
    · intro i hi
      rw [List.mem_range] at hi
      have hib : i < bits + 1 := by omega
      exact lt_of_lt_of_le (hbounds i hib).2 (Nat.pow_le_pow_right (by omega) (by omega))
  intro hzero
  rw [Nat.xor_eq_zero] at hzero
  have hmge : 2 ^ Nat.log2 x ≤ (xor_temp bits draws).getD (Nat.log2 x) 0 :=
    (hbounds (Nat.log2 x) hjlt).1
  omega

/-- Witness for C6_candidate_masks_echelon: `bits = 1`, draws `[0, 0]`,
the nonzero coefficient vector `x = 3` (selecting both candidates). -/
theorem C6_candidate_masks_echelon_witness :
    subset_xor (xor_temp 1 [0, 0]) 3 ≠ 0 :=
  (C6_candidate_masks_echelon 1 [0, 0] (by decide)).2.2 3 (by decide) (by decide)
